import Mathlib

/-!
Verification of the Intan_RHX_TCP_Stim core against its specification.

Part 1 embeds the adaptive parameter-search engine of
src/models/bo_model.py (classes BOModel and TVBOModel).  The surrogate
optimizer (skopt) is treated as an opaque ask/tell capability: `ask` is an
arbitrary stream of proposals; `tell` calls are recorded in a log so that
what is submitted to the surrogate can be reasoned about.

Part 2 embeds the binary recording decoder of src/utils/read_data.py
(read_header, _read_qstring, read_intan_rhs_file,
_get_bytes_per_data_block, _rhs_skip_after_amplifier) over byte streams
modelled as lists of naturals.
-/

/-- One parameter assignment, in the dimension order used by
`suggest_parameters` in src/models/bo_model.py: four categorical channel
dimensions and two integer amplitudes. -/
structure Params where
  channel_a : Nat
  channel_b : Nat
  return_channel_a : Nat
  return_channel_b : Nat
  amplitude_a : Int
  amplitude_b : Int
  deriving DecidableEq

instance : Inhabited Params := ⟨⟨0, 0, 0, 0, 0, 0⟩⟩

/-- The four channel values of an assignment, in declaration order. -/
def Params.channelList (p : Params) : List Nat :=
  [p.channel_a, p.channel_b, p.return_channel_a, p.return_channel_b]

/-- The loop guard of `suggest_parameters`:
`len({channel_a, channel_b, return_channel_a, return_channel_b}) == 4`.
Python set cardinality equals the length after removing duplicates. -/
def channelsDistinct (p : Params) : Bool :=
  p.channelList.dedup.length = 4

/-- Fueled unrolling of the `while True` loop in `suggest_parameters`
(identical in BOModel and TVBOModel): at step `i` ask the surrogate for
proposal `ask i`; accept it if all four channels are distinct, otherwise
retry.  The source has no fuel parameter: its loop runs until a distinct
proposal appears, so `none` here means the source loop has not terminated
within `fuel` iterations. -/
def suggest_parameters (ask : Nat → Params) (i : Nat) : Nat → Option Params
  | 0 => none
  | fuel + 1 =>
    if channelsDistinct (ask i) then some (ask i) else suggest_parameters ask (i + 1) fuel

/-- State of a BOModel instance: the two history lists plus a log of every
`optimizer.tell` call made so far (pairs of parameters and the minimised
value passed to the surrogate). -/
structure BOState where
  params_history : List Params
  results_history : List ℚ
  tells : List (Params × ℚ)
  deriving DecidableEq

/-- `BOModel.__init__`: empty histories. -/
def BOState.init : BOState := ⟨[], [], []⟩

/-- `BOModel.update`: append to both histories and tell the surrogate
`(p, -result)` once (maximisation handed to a minimising surrogate). -/
def BOModel_update (s : BOState) (p : Params) (result : ℚ) : BOState :=
  { params_history := s.params_history ++ [p]
    results_history := s.results_history ++ [result]
    tells := s.tells ++ [(p, -result)] }

/-- Scan underlying `np.argmax`: carries the current best value, the next
index and the index of the current best. -/
def argmaxGo : List ℚ → ℚ → Nat → Nat → Nat
  | [], _, _, best => best
  | x :: xs, bv, i, best =>
    if bv < x then argmaxGo xs x (i + 1) i else argmaxGo xs bv (i + 1) best

/-- `np.argmax`: index of the first occurrence of the maximum
(0 on the empty list, matching numpy only on nonempty input, which is the
only way the source calls it). -/
def np_argmax : List ℚ → Nat
  | [] => 0
  | x :: xs => argmaxGo xs x 1 0

/-- `BOModel.best_result`: `(None, None)` when no observation exists,
otherwise the raw reward at the argmax index together with the parameters
recorded at that same index. -/
def best_result (s : BOState) : Option (ℚ × Params) :=
  match s.results_history with
  | [] => none
  | _ :: _ =>
    some (s.results_history.getD (np_argmax s.results_history) 0,
          s.params_history.getD (np_argmax s.results_history) default)

/-- State of a TVBOModel instance: histories, time stamps and the tell log. -/
structure TVBOState where
  params_history : List Params
  results_history : List ℚ
  time_stamps : List Nat
  tells : List (Params × ℚ)
  deriving DecidableEq

/-- `TVBOModel.__init__`: empty histories. -/
def TVBOState.init : TVBOState := ⟨[], [], [], []⟩

/-- `TVBOModel.update`: record `current_time = len(time_stamps)` before
appending, append to all three histories, recompute the decayed value
`-res * time_decay ^ (current_time - t)` for every `(t, res)` in the
enumerated (post-append) results history, and re-submit the zipped
`(param, adjusted)` pairs to the surrogate, one tell per pair. -/
def TVBO_update (time_decay : ℚ) (s : TVBOState) (p : Params) (result : ℚ) : TVBOState :=
  let current_time := s.time_stamps.length
  let params : List Params := s.params_history ++ [p]
  let results : List ℚ := s.results_history ++ [result]
  let adjusted : List ℚ :=
    (List.enumFrom 0 results).map (fun tr => -tr.2 * time_decay ^ (current_time - tr.1))
  { params_history := params
    results_history := results
    time_stamps := s.time_stamps ++ [current_time]
    tells := s.tells ++ params.zip adjusted }

/-- `TVBOModel.best_result`: identical to `BOModel.best_result`, over the
raw (undecayed) results history. -/
def tv_best_result (s : TVBOState) : Option (ℚ × Params) :=
  match s.results_history with
  | [] => none
  | _ :: _ =>
    some (s.results_history.getD (np_argmax s.results_history) 0,
          s.params_history.getD (np_argmax s.results_history) default)

/-- Run a sequence of `BOModel.update` calls in order. -/
def runUpdates (s : BOState) (l : List (Params × ℚ)) : BOState :=
  l.foldl (fun st pr => BOModel_update st pr.1 pr.2) s

/-- Run a sequence of `TVBOModel.update` calls in order. -/
def runTVUpdates (d : ℚ) (s : TVBOState) (l : List (Params × ℚ)) : TVBOState :=
  l.foldl (fun st pr => TVBO_update d st pr.1 pr.2) s

/-- The skopt search space of both models: four categorical channel
dimensions over `ti_channels` and two integer amplitude dimensions with
inclusive bounds `amplitude_range`.  Membership of an assignment in the
space, which is the contract the surrogate's `ask` honours. -/
def in_space (ti_channels : List Nat) (lo hi : Int) (p : Params) : Prop :=
  p.channel_a ∈ ti_channels ∧ p.channel_b ∈ ti_channels ∧
  p.return_channel_a ∈ ti_channels ∧ p.return_channel_b ∈ ti_channels ∧
  lo ≤ p.amplitude_a ∧ p.amplitude_a ≤ hi ∧ lo ≤ p.amplitude_b ∧ p.amplitude_b ≤ hi

instance (tis : List Nat) (lo hi : Int) (p : Params) : Decidable (in_space tis lo hi p) := by
  unfold in_space; infer_instance

/-- Modelled from the spec: `ParameterSpace.is_valid` (the source has no
such function; the parameter space lives inside the third-party surrogate).
True iff every dimension's value lies in its domain or inclusive bounds and
the four channel dimensions of the distinctness group are pairwise
different. -/
def is_valid (ti_channels : List Nat) (lo hi : Int) (p : Params) : Prop :=
  in_space ti_channels lo hi p ∧ p.channelList.Pairwise (· ≠ ·)

instance (tis : List Nat) (lo hi : Int) (p : Params) : Decidable (is_valid tis lo hi p) := by
  unfold is_valid; infer_instance

/-! ## Part 2: the binary recording decoder (src/utils/read_data.py)

Byte streams are lists of naturals (each byte < 256 in well-formed input);
`struct.unpack` reads that hit end-of-stream raise in Python and are
modelled by `Option` failure; `fid.seek(n, 1)` never fails and is modelled
by `List.drop`. -/

/-- `struct.unpack('<I', fid.read(4))`: little-endian unsigned 32-bit. -/
def readU32LE : List Nat → Option (Nat × List Nat)
  | b0 :: b1 :: b2 :: b3 :: rest =>
    some (b0 + 256 * b1 + 65536 * b2 + 16777216 * b3, rest)
  | _ => none

/-- `struct.unpack('<H', fid.read(2))`: little-endian unsigned 16-bit. -/
def readU16LE : List Nat → Option (Nat × List Nat)
  | b0 :: b1 :: rest => some (b0 + 256 * b1, rest)
  | _ => none

/-- `struct.unpack('<h', fid.read(2))`: little-endian signed 16-bit. -/
def readI16LE : List Nat → Option (Int × List Nat)
  | b0 :: b1 :: rest =>
    some (if b0 + 256 * b1 < 32768 then ((b0 + 256 * b1 : Nat) : Int)
          else ((b0 + 256 * b1 : Nat) : Int) - 65536, rest)
  | _ => none

/-- Read `n` consecutive little-endian 16-bit words. -/
def readWords : Nat → List Nat → Option (List Nat × List Nat)
  | 0, b => some ([], b)
  | n + 1, b => do
    let (w, b1) ← readU16LE b
    let (ws, b2) ← readWords n b1
    some (w :: ws, b2)

/-- `_read_qstring`: read a 32-bit length field; `0xFFFFFFFF` means the
empty string; otherwise halve the length (`length = length // 2`, the field
counts bytes of 16-bit Unicode) and read that many 16-bit code units.
The decoded string is its list of code units. -/
def read_qstring (b : List Nat) : Option (List Nat × List Nat) := do
  let (len, b1) ← readU32LE b
  if len = 4294967295 then some ([], b1)
  else readWords (len / 2) b1

/-- The header fields of `read_header` that the data-reading pass uses. -/
structure RHeader where
  num_amplifier_channels : Nat
  num_samples_per_data_block : Nat
  data_start_byte : Nat
  total_file_size : Nat
  deriving DecidableEq

/-- `_get_bytes_per_data_block`: timestamps, amplifier, DC amplifier, stim,
two board-ADC channels and two dig in/out lumps, each sized with the
hard-coded 128 samples per block. -/
def get_bytes_per_data_block (h : RHeader) : Nat :=
  128 * 4
  + 128 * 2 * h.num_amplifier_channels
  + 128 * 2 * h.num_amplifier_channels
  + 128 * 2 * h.num_amplifier_channels
  + 128 * 2 * 2
  + 128 * 2 * 2

/-- `_rhs_skip_after_amplifier`: DC amplifier + stim + board ADC + dig,
again sized with the hard-coded 128 samples per block. -/
def rhs_skip_after_amplifier (h : RHeader) : Nat :=
  128 * 2 * h.num_amplifier_channels
  + 128 * 2 * h.num_amplifier_channels
  + 128 * 2 * 2
  + 128 * 2 * 2

/-- `num_data_blocks = data_size_bytes // bytes_per_block` from
`read_intan_rhs_file`. -/
def num_data_blocks (h : RHeader) : Nat :=
  (h.total_file_size - h.data_start_byte) / get_bytes_per_data_block h

/-- `total_samples = num_data_blocks * samples_per_block`. -/
def total_samples (h : RHeader) : Nat :=
  num_data_blocks h * h.num_samples_per_data_block

/-- One iteration of the data-reading loop in `read_intan_rhs_file`: skip
the timestamp region (`fid.seek(4 * samples_per_block, 1)`), read
`samples_per_block * num_channels` 16-bit amplifier words (`np.fromfile`
returning fewer than `count` elements makes the following `reshape` raise,
hence `Option` failure), then skip the trailing auxiliary payload. -/
def readBlockData (spb nch skip : Nat) (b : List Nat) : Option (List Nat × List Nat) := do
  let (ws, b2) ← readWords (spb * nch) (b.drop (4 * spb))
  some (ws, b2.drop skip)

/-- The data-reading loop of `read_intan_rhs_file`, iterated `n` times. -/
def readDataBlocks (spb nch skip : Nat) : Nat → List Nat → Option (List (List Nat) × List Nat)
  | 0, b => some ([], b)
  | n + 1, b => do
    let (ws, b1) ← readBlockData spb nch skip b
    let (rest, b2) ← readDataBlocks spb nch skip n b1
    some (ws :: rest, b2)

/-- The amplifier-data pass of `read_intan_rhs_file` applied to the bytes
that follow `data_start_byte`: `num_data_blocks` whole blocks are read. -/
def read_amplifier_data (h : RHeader) (dataBytes : List Nat) :
    Option (List (List Nat) × List Nat) :=
  readDataBlocks h.num_samples_per_data_block h.num_amplifier_channels
    (rhs_skip_after_amplifier h) (num_data_blocks h) dataBytes

/-- One retained channel entry of `header['amplifier_channels']`. -/
structure ChannelDescriptor where
  native_channel_name : List Nat
  custom_channel_name : List Nat
  signal_type : Int
  deriving DecidableEq

/-- The per-channel metadata record: 6 little-endian int16 fields for .rhd
(variant A), 7 for .rhs (variant B); `signal_type` is field 2 and
`channel_enabled` field 3 in both. -/
def readChannelMeta (rhd : Bool) (b : List Nat) : Option ((Int × Int) × List Nat) :=
  if rhd then do
    let (_, b) ← readI16LE b
    let (_, b) ← readI16LE b
    let (sigType, b) ← readI16LE b
    let (en, b) ← readI16LE b
    let (_, b) ← readI16LE b
    let (_, b) ← readI16LE b
    some ((sigType, en), b)
  else do
    let (_, b) ← readI16LE b
    let (_, b) ← readI16LE b
    let (sigType, b) ← readI16LE b
    let (en, b) ← readI16LE b
    let (_, b) ← readI16LE b
    let (_, b) ← readI16LE b
    let (_, b) ← readI16LE b
    some ((sigType, en), b)

/-- The per-channel body of the group loop in `read_header`: two name
strings, the metadata record, a 16-byte skip of trigger and impedance
fields, and retention only when the enabled flag is set and the signal
type is amplifier (0). -/
def read_channel (rhd : Bool) (b : List Nat) : Option (Option ChannelDescriptor × List Nat) := do
  let (native, b1) ← read_qstring b
  let (custom, b2) ← read_qstring b1
  let ((sigType, en), b3) ← readChannelMeta rhd b2
  if en ≠ 0 ∧ sigType = 0 then
    some (some ⟨native, custom, sigType⟩, (b3.drop (8 + 8)))
  else
    some (none, (b3.drop (8 + 8)))

/-- The inner channel loop of `read_header`, run `n` times, collecting the
retained channels in loop order. -/
def read_channels (rhd : Bool) : Nat → List Nat → Option (List ChannelDescriptor × List Nat)
  | 0, b => some ([], b)
  | n + 1, b => do
    let (c, b1) ← read_channel rhd b
    let (cs, b2) ← read_channels rhd n b1
    some (c.toList ++ cs, b2)

/-- One signal group of `read_header`: group name, group label, three
int16 fields (enabled, num_channels, unused); the channels are read only
when `num_channels > 0 and enabled > 0`. -/
def read_signal_group (rhd : Bool) (b : List Nat) : Option (List ChannelDescriptor × List Nat) := do
  let (_, b1) ← read_qstring b
  let (_, b2) ← read_qstring b1
  let (enabled, b3) ← readI16LE b2
  let (numCh, b4) ← readI16LE b3
  let (_, b5) ← readI16LE b4
  if 0 < numCh ∧ 0 < enabled then
    read_channels rhd numCh.toNat b5
  else
    some ([], b5)

/-- The group loop of `read_header`, run once per signal group. -/
def read_signal_groups_loop (rhd : Bool) : Nat → List Nat → Option (List ChannelDescriptor × List Nat)
  | 0, b => some ([], b)
  | n + 1, b => do
    let (cs, b1) ← read_signal_group rhd b
    let (rest, b2) ← read_signal_groups_loop rhd n b1
    some (cs ++ rest, b2)

/-- The signal-group section of `read_header`: a 16-bit group count
followed by that many groups. -/
def read_signal_groups (rhd : Bool) (b : List Nat) : Option (List ChannelDescriptor × List Nat) := do
  let (n, b1) ← readI16LE b
  read_signal_groups_loop rhd n.toNat b1

/-- Header fields produced by `read_header` that the claims mention. -/
structure HeaderModel where
  version_major : Int
  version_minor : Int
  sample_rate_bits : Nat
  amplifier_channels : List ChannelDescriptor
  samples_per_block_field : Nat
  deriving DecidableEq

/-- `read_header`: the file extension selects the variant (`rhd = true`
for variant A); the 4-byte magic must equal the variant's constant
(`0xc6912702` for .rhd, `0xd69127ac` for .rhs) or the call fails; then
version, sample rate (raw bits), the variant-specific skips, three note
strings, the version-dependent reference-channel string, the signal
groups, and finally `num_samples_per_data_block = 60` for .rhd and `128`
for .rhs. -/
def read_header (rhd : Bool) (b : List Nat) : Option (HeaderModel × List Nat) := do
  let (magic, b) ← readU32LE b
  if magic = (if rhd then 0xc6912702 else 0xd69127ac) then
    let (vmaj, b) ← readI16LE b
    let (vmin, b) ← readI16LE b
    let (sr, b) ← readU32LE b
    let b := if rhd then b else b.drop 34
    let b := b.drop 2
    let b := if rhd then b else b.drop (8 + 4 + 12)
    let (_, b) ← read_qstring b
    let (_, b) ← read_qstring b
    let (_, b) ← read_qstring b
    let b ←
      (if rhd then
        (if vmaj > 1 then (read_qstring (b.drop 4)).map Prod.snd else some (b.drop 4))
      else
        (read_qstring (b.drop 4)).map Prod.snd)
    let (chans, b) ← read_signal_groups rhd b
    some (⟨vmaj, vmin, sr, chans, if rhd then 60 else 128⟩, b)
  else none

/-! ## Helper lemmas about the distinctness guard -/

theorem channelsDistinct_iff_nodup (p : Params) :
    channelsDistinct p = true ↔ p.channelList.Nodup := by
  simp only [channelsDistinct, decide_eq_true_eq]
  constructor
  · intro h
    have hsub := List.dedup_sublist p.channelList
    have heq := hsub.eq_of_length (by rw [h]; rfl)
    exact List.dedup_eq_self.mp heq
  · intro h
    rw [List.dedup_eq_self.mpr h]
    rfl

theorem channelsDistinct_false_of_small_domain (D : Finset Nat) (hD : D.card < 4) (p : Params)
    (hp : ∀ c ∈ p.channelList, c ∈ D) : channelsDistinct p = false := by
  by_contra hne
  have hb : channelsDistinct p = true := by
    cases hcd : channelsDistinct p
    · exact absurd hcd hne
    · rfl
  have hnd : p.channelList.Nodup := (channelsDistinct_iff_nodup p).mp hb
  have hcard : p.channelList.toFinset.card = 4 := by
    rw [List.toFinset_card_of_nodup hnd]
    rfl
  have hsub : p.channelList.toFinset ⊆ D := by
    intro x hx
    exact hp x (List.mem_toFinset.mp hx)
  have := Finset.card_le_card hsub
  omega

/-- C1: the claim fails on the code.  The `while True` rejection loop of
`suggest_parameters` has no retry bound and no `ConstraintInfeasible`
failure path: whenever the surrogate draws the four channel dimensions
from a domain with fewer than four distinct values (a distinctness group
of size 4 over a categorical domain of size < 4), no iteration can
satisfy the guard, so after any finite number of iterations the loop has
still produced nothing — it loops forever instead of failing. -/
theorem c1_suggest_loop_never_terminates (D : Finset Nat) (hD : D.card < 4)
    (ask : Nat → Params) (hask : ∀ n, ∀ c ∈ (ask n).channelList, c ∈ D) :
    ∀ fuel i, suggest_parameters ask i fuel = none := by
  intro fuel
  induction fuel with
  | zero => intro i; rfl
  | succ n ih =>
    intro i
    have hfalse := channelsDistinct_false_of_small_domain D hD (ask i) (hask i)
    unfold suggest_parameters
    rw [hfalse]
    simpa using ih (i + 1)

/-- Witness for C1: with the three-channel domain {0, 1, 2} and a
surrogate that always proposes channels from it, 500 iterations of the
loop still return nothing. -/
theorem c1_suggest_loop_never_terminates_witness :
    suggest_parameters (fun _ => ⟨0, 1, 2, 0, 5, 5⟩) 0 500 = none :=
  c1_suggest_loop_never_terminates {0, 1, 2} (by decide) (fun _ => ⟨0, 1, 2, 0, 5, 5⟩)
    (fun _ => (by decide :
      ∀ c ∈ (Params.mk 0 1 2 0 5 5).channelList, c ∈ ({0, 1, 2} : Finset Nat))) 500 0

/-- C9: whenever the rejection loop of `suggest_parameters` returns an
assignment, that assignment satisfies `ParameterSpace.is_valid`: under the
surrogate ask contract (proposals lie in the declared space) every
dimension's value is in its domain or inclusive bounds, and the loop guard
guarantees the four channel dimensions of the distinctness group are
pairwise different. -/
theorem c9_suggest_returns_valid (tis : List Nat) (lo hi : Int) (ask : Nat → Params)
    (hask : ∀ n, in_space tis lo hi (ask n)) :
    ∀ fuel i p, suggest_parameters ask i fuel = some p → is_valid tis lo hi p := by
  intro fuel
  induction fuel with
  | zero =>
    intro i p h
    exact absurd h (by simp [suggest_parameters])
  | succ n ih =>
    intro i p h
    unfold suggest_parameters at h
    by_cases hc : channelsDistinct (ask i) = true
    · rw [if_pos hc] at h
      obtain rfl : ask i = p := Option.some.inj h
      exact ⟨hask i, (channelsDistinct_iff_nodup (ask i)).mp hc⟩
    · rw [if_neg hc] at h
      exact ih (i + 1) p h

/-- Witness for C9: a concrete space and surrogate for which the loop
returns after one iteration, and the returned assignment is valid. -/
theorem c9_suggest_returns_valid_witness :
    is_valid [0, 1, 2, 3, 4] 0 200 ⟨0, 1, 2, 3, 10, 20⟩ :=
  c9_suggest_returns_valid [0, 1, 2, 3, 4] 0 200 (fun _ => ⟨0, 1, 2, 3, 10, 20⟩)
    (fun _ => (by decide : in_space [0, 1, 2, 3, 4] 0 200 (Params.mk 0 1 2 3 10 20)))
    1 0 ⟨0, 1, 2, 3, 10, 20⟩ (by decide)

/-! ## np.argmax and best_result -/

theorem argmaxGo_spec (xs : List ℚ) : ∀ bv i best,
    (argmaxGo xs bv i best = best ∧ ∀ x ∈ xs, x ≤ bv) ∨
    (∃ k, ∃ hk : k < xs.length, argmaxGo xs bv i best = i + k ∧ bv < xs[k] ∧
      ∀ x ∈ xs, x ≤ xs[k]) := by
  induction xs with
  | nil =>
    intro bv i best
    left
    exact ⟨rfl, by simp⟩
  | cons x xs ih =>
    intro bv i best
    by_cases hx : bv < x
    · right
      rcases ih x (i + 1) i with ⟨heq, hle⟩ | ⟨k, hk, heq, hlt, hle⟩
      · refine ⟨0, by simp, ?_, by simpa using hx, ?_⟩
        · simpa [argmaxGo, hx] using heq
        · intro y hy
          rcases List.mem_cons.mp hy with rfl | hy
          · simp
          · simpa using hle y hy
      · refine ⟨k + 1, by simpa using Nat.succ_lt_succ hk, ?_, ?_, ?_⟩
        · have hval : argmaxGo (x :: xs) bv i best = argmaxGo xs x (i + 1) i := by
            simp [argmaxGo, hx]
          rw [hval, heq]
          omega
        · simp only [List.getElem_cons_succ]
          exact lt_trans hx hlt
        · intro y hy
          simp only [List.getElem_cons_succ]
          rcases List.mem_cons.mp hy with rfl | hy
          · exact le_of_lt hlt
          · exact hle y hy
    · rcases ih bv (i + 1) best with ⟨heq, hle⟩ | ⟨k, hk, heq, hlt, hle⟩
      · left
        constructor
        · simpa [argmaxGo, hx] using heq
        · intro y hy
          rcases List.mem_cons.mp hy with rfl | hy
          · exact le_of_not_lt hx
          · exact hle y hy
      · right
        refine ⟨k + 1, by simpa using Nat.succ_lt_succ hk, ?_, ?_, ?_⟩
        · have hval : argmaxGo (x :: xs) bv i best = argmaxGo xs bv (i + 1) best := by
            simp [argmaxGo, hx]
          rw [hval, heq]
          omega
        · simp only [List.getElem_cons_succ]
          exact hlt
        · intro y hy
          simp only [List.getElem_cons_succ]
          rcases List.mem_cons.mp hy with rfl | hy
          · exact le_trans (le_of_not_lt hx) (le_of_lt hlt)
          · exact hle y hy

theorem np_argmax_spec (x : ℚ) (xs : List ℚ) :
    np_argmax (x :: xs) < (x :: xs).length ∧
    ∀ y ∈ x :: xs, y ≤ (x :: xs).getD (np_argmax (x :: xs)) 0 := by
  rcases argmaxGo_spec xs x 1 0 with ⟨heq, hle⟩ | ⟨k, hk, heq, hlt, hle⟩
  · have hn : np_argmax (x :: xs) = 0 := by simpa [np_argmax] using heq
    rw [hn]
    refine ⟨by simp, ?_⟩
    intro y hy
    simp only [List.getD_cons_zero]
    rcases List.mem_cons.mp hy with rfl | hy
    · exact le_refl y
    · exact hle y hy
  · have hn : np_argmax (x :: xs) = k + 1 := by
      simp only [np_argmax]
      rw [heq]
      omega
    rw [hn]
    constructor
    · simp only [List.length_cons]
      omega
    · intro y hy
      have hgd : (x :: xs).getD (k + 1) 0 = xs[k] := by
        rw [List.getD_cons_succ]
        exact List.getD_eq_getElem xs 0 hk
      rw [hgd]
      rcases List.mem_cons.mp hy with rfl | hy
      · exact le_of_lt hlt
      · exact hle y hy

/-- C2: `best_result` returns the observation with the maximum raw
(undecayed) reward together with the assignment recorded at the same
index, and an empty result when no observations exist; in particular after
observing rewards [3, 1, 5, 2] in order it returns (5, third assignment),
both in direct mode and in time-decayed mode for every decay setting. -/
theorem c2_best_result_raw_max :
    (∀ p0 p1 p2 p3 : Params, ∀ d : ℚ,
      best_result (runUpdates BOState.init [(p0, 3), (p1, 1), (p2, 5), (p3, 2)]) =
        some (5, p2) ∧
      tv_best_result (runTVUpdates d TVBOState.init [(p0, 3), (p1, 1), (p2, 5), (p3, 2)]) =
        some (5, p2)) ∧
    best_result BOState.init = none ∧
    tv_best_result TVBOState.init = none ∧
    (∀ s : BOState, s.results_history ≠ [] →
      ∃ r p, best_result s = some (r, p) ∧ (∀ x ∈ s.results_history, x ≤ r) ∧
        ∃ i, i < s.results_history.length ∧ s.results_history.getD i 0 = r ∧
          s.params_history.getD i default = p) := by
  refine ⟨?_, rfl, rfl, ?_⟩
  · intro p0 p1 p2 p3 d
    constructor
    · norm_num [runUpdates, BOModel_update, BOState.init, best_result, np_argmax, argmaxGo]
    · norm_num [runTVUpdates, TVBO_update, TVBOState.init, tv_best_result, np_argmax, argmaxGo]
  · intro s hne
    cases hrh : s.results_history with
    | nil => exact absurd hrh hne
    | cons x xs =>
      obtain ⟨hlt, hmax⟩ := np_argmax_spec x xs
      refine ⟨(x :: xs).getD (np_argmax (x :: xs)) 0,
              s.params_history.getD (np_argmax (x :: xs)) default, ?_, ?_,
              np_argmax (x :: xs), ?_, ?_, rfl⟩
      · simp only [best_result, hrh]
      · intro y hy
        exact hmax y hy
      · exact hlt
      · rfl

/-- Witness for C2: a one-observation state. -/
theorem c2_best_result_raw_max_witness :
    ∃ r p, best_result ⟨[default], [1], []⟩ = some (r, p) ∧
      (∀ x ∈ [(1 : ℚ)], x ≤ r) ∧
      ∃ i, i < [(1 : ℚ)].length ∧ [(1 : ℚ)].getD i 0 = r ∧
        [(default : Params)].getD i default = p :=
  c2_best_result_raw_max.2.2.2 ⟨[default], [1], []⟩ (by simp)

/-! ## History-length invariants -/

theorem runUpdates_cons (s : BOState) (x : Params × ℚ) (l : List (Params × ℚ)) :
    runUpdates s (x :: l) = runUpdates (BOModel_update s x.1 x.2) l := rfl

theorem runTVUpdates_cons (d : ℚ) (s : TVBOState) (x : Params × ℚ) (l : List (Params × ℚ)) :
    runTVUpdates d s (x :: l) = runTVUpdates d (TVBO_update d s x.1 x.2) l := rfl

theorem runUpdates_lengths (l : List (Params × ℚ)) : ∀ s : BOState,
    (runUpdates s l).params_history.length = s.params_history.length + l.length ∧
    (runUpdates s l).results_history.length = s.results_history.length + l.length := by
  induction l with
  | nil => intro s; simp [runUpdates]
  | cons x xs ih =>
    intro s
    rw [runUpdates_cons]
    obtain ⟨h1, h2⟩ := ih (BOModel_update s x.1 x.2)
    rw [h1, h2]
    simp [BOModel_update]
    omega

theorem runTVUpdates_lengths (d : ℚ) (l : List (Params × ℚ)) : ∀ s : TVBOState,
    (runTVUpdates d s l).params_history.length = s.params_history.length + l.length ∧
    (runTVUpdates d s l).results_history.length = s.results_history.length + l.length := by
  induction l with
  | nil => intro s; simp [runTVUpdates]
  | cons x xs ih =>
    intro s
    rw [runTVUpdates_cons]
    obtain ⟨h1, h2⟩ := ih (TVBO_update d s x.1 x.2)
    rw [h1, h2]
    simp [TVBO_update]
    omega

theorem runTVUpdates_stamps (d : ℚ) (l : List (Params × ℚ)) : ∀ (s : TVBOState) (n : Nat),
    s.time_stamps = List.range n → (runTVUpdates d s l).time_stamps = List.range (n + l.length) := by
  induction l with
  | nil =>
    intro s n hs
    simpa [runTVUpdates] using hs
  | cons x xs ih =>
    intro s n hs
    rw [runTVUpdates_cons]
    have hstep : (TVBO_update d s x.1 x.2).time_stamps = List.range (n + 1) := by
      simp only [TVBO_update, hs, List.length_range]
      rw [List.range_succ]
    have := ih (TVBO_update d s x.1 x.2) (n + 1) hstep
    rw [this]
    congr 1
    simp [List.length_cons]
    omega

/-- C10: `params_history` and `results_history` (and in time-decayed mode
`time_stamps`) always have equal length; each update appends exactly one
entry to each, the time stamp being the next sequence index in arrival
order; and `best_result` pairs a reward with the assignment recorded at
the same index. -/
theorem c10_history_invariant :
    (∀ l : List (Params × ℚ),
      (runUpdates BOState.init l).params_history.length = l.length ∧
      (runUpdates BOState.init l).results_history.length = l.length) ∧
    (∀ d : ℚ, ∀ l : List (Params × ℚ),
      (runTVUpdates d TVBOState.init l).params_history.length = l.length ∧
      (runTVUpdates d TVBOState.init l).results_history.length = l.length ∧
      (runTVUpdates d TVBOState.init l).time_stamps = List.range l.length) ∧
    (∀ s p r, (BOModel_update s p r).params_history = s.params_history ++ [p] ∧
      (BOModel_update s p r).results_history = s.results_history ++ [r]) ∧
    (∀ d s p r, (TVBO_update d s p r).params_history = s.params_history ++ [p] ∧
      (TVBO_update d s p r).results_history = s.results_history ++ [r] ∧
      (TVBO_update d s p r).time_stamps = s.time_stamps ++ [s.time_stamps.length]) ∧
    (∀ s r p, best_result s = some (r, p) →
      ∃ i, i < s.results_history.length ∧ s.results_history.getD i 0 = r ∧
        s.params_history.getD i default = p) := by
  refine ⟨?_, ?_, ?_, ?_, ?_⟩
  · intro l
    have := runUpdates_lengths l BOState.init
    simpa [BOState.init] using this
  · intro d l
    have h1 := runTVUpdates_lengths d l TVBOState.init
    have h2 := runTVUpdates_stamps d l TVBOState.init 0 (by simp [TVBOState.init])
    simp [TVBOState.init] at h1 h2
    exact ⟨h1.1, h1.2, h2⟩
  · intro s p r
    exact ⟨rfl, rfl⟩
  · intro d s p r
    exact ⟨rfl, rfl, rfl⟩
  · intro s r p h
    cases hrh : s.results_history with
    | nil => rw [best_result, hrh] at h; exact absurd h (by simp)
    | cons x xs =>
      obtain ⟨hlt, _⟩ := np_argmax_spec x xs
      rw [best_result, hrh] at h
      obtain ⟨h1, h2⟩ := Prod.mk.injEq .. ▸ Option.some.inj h
      exact ⟨np_argmax (x :: xs), hrh ▸ hlt, hrh ▸ h1, h2⟩

/-- Witness for C10's best-pairing clause at a concrete state. -/
theorem c10_history_invariant_witness :
    ∃ i, i < ([(2 : ℚ)]).length ∧ [(2 : ℚ)].getD i 0 = 2 ∧
      [(default : Params)].getD i default = default :=
  c10_history_invariant.2.2.2.2 ⟨[default], [2], []⟩ 2 default (by decide)

/-! ## Time-decay resubmission -/

theorem zip_getElem_some {α β : Type} (l1 : List α) (l2 : List β) (i : Nat) (x : α) (y : β)
    (h1 : l1[i]? = some x) (h2 : l2[i]? = some y) : (l1.zip l2)[i]? = some (x, y) := by
  simp only [List.getElem?_zip_eq_some]
  exact ⟨h1, h2⟩

/-- C6: in time-decayed mode every `update` call recomputes, for every
historical observation `t`, the decayed value
`-reward_t * decay ^ (current_index - t)` (current_index being the index
of the newest observation) and re-submits the entire decayed history to
the surrogate: under the equal-length history invariant, the `t`-th pair
this call submits is `(params[t], -results[t] * d ^ (current - t))`.
With decay 1/2 and three observations of raw reward 10 the submitted
values after each call are `-10`, then `-5, -10`, then `-5/2, -5, -10` —
the last round proportional to `10·1/4, 10·1/2, 10·1`, oldest weighted
least. -/
theorem c6_time_decay_resubmission :
    (∀ p0 p1 p2 : Params,
      (runTVUpdates (1 / 2) TVBOState.init [(p0, 10), (p1, 10), (p2, 10)]).tells =
        [(p0, -10), (p0, -5), (p1, -10), (p0, -(5 / 2)), (p1, -5), (p2, -10)]) ∧
    (∀ (d : ℚ) (s : TVBOState) (p : Params) (r : ℚ) (t : Nat),
      s.params_history.length = s.results_history.length →
      t ≤ s.results_history.length →
      ((TVBO_update d s p r).tells)[s.tells.length + t]? =
        some ((s.params_history ++ [p]).getD t default,
          -((s.results_history ++ [r]).getD t 0) * d ^ (s.time_stamps.length - t))) := by
  constructor
  · intro p0 p1 p2
    norm_num [runTVUpdates, TVBO_update, TVBOState.init, List.enumFrom]
  · intro d s p r t hlen ht
    have hltr : t < (s.results_history ++ [r]).length := by
      simp only [List.length_append, List.length_cons, List.length_nil]
      omega
    have hltp : t < (s.params_history ++ [p]).length := by
      simp only [List.length_append, List.length_cons, List.length_nil]
      omega
    simp only [TVBO_update]
    rw [List.getElem?_append_right (Nat.le_add_right _ _)]
    simp only [Nat.add_sub_cancel_left]
    apply zip_getElem_some
    · rw [List.getElem?_eq_getElem hltp]
      rw [List.getD_eq_getElem _ _ hltp]
    · rw [List.getElem?_map, List.getElem?_enumFrom]
      rw [List.getElem?_eq_getElem hltr]
      rw [List.getD_eq_getElem _ _ hltr]
      simp

/-- Witness for C6's general clause at a concrete state: after one prior
observation of reward 7 at parameters `default`, submitting a new
observation re-submits the decayed old observation as the first pair. -/
theorem c6_time_decay_resubmission_witness :
    ((TVBO_update (1 / 2) ⟨[default], [7], [0], [(default, -7)]⟩ default 9).tells)[1 + 0]? =
      some (([(default : Params)] ++ [default]).getD 0 default,
        -((([(7 : ℚ)] ++ [9])).getD 0 0) * (1 / 2 : ℚ) ^ (([(0 : Nat)]).length - 0)) :=
  c6_time_decay_resubmission.2 (1 / 2) ⟨[default], [7], [0], [(default, -7)]⟩ default 9 0
    (by simp) (by simp)

/-! ## Block layout (C7) -/

/-- C7 counterexample: for a variant-A header (60 samples per block, zero
channels) the claimed identity fails: `_get_bytes_per_data_block` returns
1536 (it hard-codes 128 samples per block) while
`4*samples_per_block + amplifier_payload + trailing_skip` is 1264. -/
theorem c7_block_layout_counterexample :
    get_bytes_per_data_block ⟨0, 60, 0, 0⟩ ≠
      4 * (RHeader.mk 0 60 0 0).num_samples_per_data_block
      + 2 * (RHeader.mk 0 60 0 0).num_samples_per_data_block
          * (RHeader.mk 0 60 0 0).num_amplifier_channels
      + rhs_skip_after_amplifier ⟨0, 60, 0, 0⟩ := by decide

/-- C7 amended: the identity
`bytes_per_block = 4*samples_per_block + 2*samples_per_block*channel_count
+ trailing_skip_bytes` holds exactly when `samples_per_block = 128`
(variant B); `_get_bytes_per_data_block` hard-codes 128 samples per block,
so for variant A (60 samples per block) the equation fails. -/
theorem c7_block_layout_amended (h : RHeader) (hv : h.num_samples_per_data_block = 128) :
    get_bytes_per_data_block h =
      4 * h.num_samples_per_data_block
      + 2 * h.num_samples_per_data_block * h.num_amplifier_channels
      + rhs_skip_after_amplifier h := by
  rw [hv]
  unfold get_bytes_per_data_block rhs_skip_after_amplifier
  ring

/-- Witness for C7's amended identity at a concrete variant-B header. -/
theorem c7_block_layout_amended_witness :
    get_bytes_per_data_block ⟨3, 128, 0, 0⟩ =
      4 * (RHeader.mk 3 128 0 0).num_samples_per_data_block
      + 2 * (RHeader.mk 3 128 0 0).num_samples_per_data_block
          * (RHeader.mk 3 128 0 0).num_amplifier_channels
      + rhs_skip_after_amplifier ⟨3, 128, 0, 0⟩ :=
  c7_block_layout_amended ⟨3, 128, 0, 0⟩ rfl

/-! ## Length-prefixed strings (C4) -/

/-- Little-endian byte encoding of a 32-bit value. -/
def encodeU32 (n : Nat) : List Nat :=
  [n % 256, n / 256 % 256, n / 65536 % 256, n / 16777216 % 256]

/-- Little-endian byte encoding of a 16-bit value. -/
def encodeU16 (u : Nat) : List Nat :=
  [u % 256, u / 256 % 256]

theorem readU32LE_encode (n : Nat) (hn : n < 4294967296) (rest : List Nat) :
    readU32LE (encodeU32 n ++ rest) = some (n, rest) := by
  simp only [encodeU32, List.cons_append, List.nil_append, readU32LE]
  have hrec : n % 256 + 256 * (n / 256 % 256) + 65536 * (n / 65536 % 256)
      + 16777216 * (n / 16777216 % 256) = n := by omega
  rw [hrec]

theorem readWords_success (n : Nat) : ∀ b : List Nat, 2 * n ≤ b.length →
    ∃ ws rest, readWords n b = some (ws, rest) ∧ ws.length = n ∧ rest = b.drop (2 * n) := by
  induction n with
  | zero =>
    intro b h
    exact ⟨[], b, rfl, rfl, by simp⟩
  | succ m ih =>
    intro b h
    cases b with
    | nil =>
      simp only [List.length_nil] at h
      omega
    | cons b0 b =>
      cases b with
      | nil =>
        simp only [List.length_cons, List.length_nil] at h
        omega
      | cons b1 bs =>
        obtain ⟨ws, rest, hr, hl, hd⟩ := ih bs (by simp at h ⊢; omega)
        refine ⟨(b0 + 256 * b1) :: ws, rest, ?_, by simp [hl], ?_⟩
        · simp [readWords, readU16LE, hr]
        · rw [hd]
          have h2 : 2 * (m + 1) = 2 * m + 1 + 1 := by ring
          rw [h2, List.drop_succ_cons, List.drop_succ_cons]

/-- C4 counterexample: the claim says the 32-bit length field counts
16-bit code units and that the decoder reads exactly that many; on the
concrete stream with length field 4 followed by four bytes the decoder
consumes and returns 2 code units (`length // 2`), not 4 — the length
prefix counts bytes. -/
theorem c4_qstring_counterexample :
    read_qstring [4, 0, 0, 0, 65, 0, 66, 0] = some ([65, 66], []) ∧
    ([65, 66] : List Nat).length ≠ 4 := by decide

/-- C4 amended: `_read_qstring` reads a 32-bit length field counted in
bytes, returns the empty string when the field is 0xFFFFFFFF, and
otherwise reads exactly `length / 2` 16-bit code units from the stream. -/
theorem c4_qstring_amended (len : Nat) (hlen : len < 4294967295) (b : List Nat)
    (hb : 2 * (len / 2) ≤ b.length) :
    (∃ units rest, read_qstring (encodeU32 len ++ b) = some (units, rest) ∧
      units.length = len / 2 ∧ rest = b.drop (2 * (len / 2))) ∧
    read_qstring (encodeU32 4294967295 ++ b) = some ([], b) := by
  constructor
  · obtain ⟨ws, rest, hr, hl, hd⟩ := readWords_success (len / 2) b hb
    refine ⟨ws, rest, ?_, hl, hd⟩
    unfold read_qstring
    rw [readU32LE_encode len (by omega) b]
    simp only [Option.bind_eq_bind, Option.some_bind]
    rw [if_neg (by omega)]
    exact hr
  · unfold read_qstring
    rw [readU32LE_encode 4294967295 (by norm_num) b]
    show (if 4294967295 = 4294967295 then some (([] : List Nat), b)
          else readWords (4294967295 / 2) b) = some ([], b)
    rw [if_pos rfl]

/-- Witness for C4's amended statement: length field 5 over a 5-byte tail
yields 2 code units and leaves the fifth byte unread. -/
theorem c4_qstring_amended_witness :
    (∃ units rest, read_qstring (encodeU32 5 ++ [65, 0, 66, 0, 99]) = some (units, rest) ∧
      units.length = 5 / 2 ∧ rest = ([65, 0, 66, 0, 99] : List Nat).drop (2 * (5 / 2))) ∧
    read_qstring (encodeU32 4294967295 ++ [65, 0, 66, 0, 99]) = some ([], [65, 0, 66, 0, 99]) :=
  c4_qstring_amended 5 (by norm_num) [65, 0, 66, 0, 99] (by norm_num)

/-! ## Whole-block decoding (C3) -/

theorem readBlockData_success (spb nch skip : Nat) (b : List Nat)
    (h : 4 * spb + 2 * (spb * nch) + skip ≤ b.length) :
    ∃ ws rest, readBlockData spb nch skip b = some (ws, rest) ∧
      ws.length = spb * nch ∧
      rest.length = b.length - (4 * spb + 2 * (spb * nch) + skip) := by
  obtain ⟨ws, rest0, hr, hl, hd⟩ := readWords_success (spb * nch) (b.drop (4 * spb))
    (by rw [List.length_drop]; omega)
  refine ⟨ws, rest0.drop skip, ?_, hl, ?_⟩
  · unfold readBlockData
    rw [hr]
    rfl
  · rw [List.length_drop, hd, List.length_drop, List.length_drop]
    omega

theorem readDataBlocks_success (spb nch skip : Nat) :
    ∀ (n : Nat) (b : List Nat), n * (4 * spb + 2 * (spb * nch) + skip) ≤ b.length →
    ∃ blocks rest, readDataBlocks spb nch skip n b = some (blocks, rest) ∧
      blocks.length = n ∧ (∀ blk ∈ blocks, blk.length = spb * nch) ∧
      rest.length = b.length - n * (4 * spb + 2 * (spb * nch) + skip) := by
  intro n
  induction n with
  | zero =>
    intro b h
    exact ⟨[], b, rfl, rfl, by simp, by simp⟩
  | succ m ih =>
    intro b h
    rw [Nat.succ_mul] at h
    have h1 : 4 * spb + 2 * (spb * nch) + skip ≤ b.length :=
      le_trans (Nat.le_add_left _ _) h
    obtain ⟨ws, rest1, hr1, hl1, hlen1⟩ := readBlockData_success spb nch skip b h1
    obtain ⟨blocks, rest2, hr2, hbl, hball, hlen2⟩ := ih rest1 (by
      rw [hlen1]
      exact Nat.le_sub_of_add_le h)
    refine ⟨ws :: blocks, rest2, ?_, by simp [hbl], ?_, ?_⟩
    · unfold readDataBlocks
      rw [hr1]
      simp only [Option.bind_eq_bind, Option.some_bind, hr2]
    · intro blk hblk
      rcases List.mem_cons.mp hblk with rfl | hblk
      · exact hl1
      · exact hball blk hblk
    · rw [hlen2, hlen1, Nat.sub_sub]
      congr 1
      ring

/-- C3: the data pass of `read_intan_rhs_file` reads exactly
`floor((total_file_size - data_start_byte) / bytes_per_block)` whole
blocks, each yielding `samples_per_block` samples per channel, so the
sample matrix holds `total_samples = num_data_blocks * samples_per_block`
samples per channel; the loop consumes at most the available data bytes
(never reading past end-of-file), and a partial trailing block is
discarded by the floor division without raising. -/
theorem c3_decode_whole_blocks (h : RHeader) (dataBytes : List Nat)
    (hlen : h.data_start_byte + dataBytes.length = h.total_file_size)
    (hspb : h.num_samples_per_data_block = 60 ∨ h.num_samples_per_data_block = 128) :
    num_data_blocks h = (h.total_file_size - h.data_start_byte) / get_bytes_per_data_block h ∧
    num_data_blocks h * (4 * h.num_samples_per_data_block
      + 2 * (h.num_samples_per_data_block * h.num_amplifier_channels)
      + rhs_skip_after_amplifier h) ≤ dataBytes.length ∧
    ∃ blocks rest, read_amplifier_data h dataBytes = some (blocks, rest) ∧
      blocks.length = num_data_blocks h ∧
      (∀ blk ∈ blocks, blk.length = h.num_samples_per_data_block * h.num_amplifier_channels) ∧
      blocks.length * h.num_samples_per_data_block = total_samples h := by
  have havail : dataBytes.length = h.total_file_size - h.data_start_byte := by omega
  have hCB : 4 * h.num_samples_per_data_block
      + 2 * (h.num_samples_per_data_block * h.num_amplifier_channels)
      + rhs_skip_after_amplifier h ≤ get_bytes_per_data_block h := by
    unfold rhs_skip_after_amplifier get_bytes_per_data_block
    rcases hspb with hv | hv <;> rw [hv] <;> omega
  have hfit : num_data_blocks h * (4 * h.num_samples_per_data_block
      + 2 * (h.num_samples_per_data_block * h.num_amplifier_channels)
      + rhs_skip_after_amplifier h) ≤ dataBytes.length := by
    calc num_data_blocks h * (4 * h.num_samples_per_data_block
          + 2 * (h.num_samples_per_data_block * h.num_amplifier_channels)
          + rhs_skip_after_amplifier h)
        ≤ num_data_blocks h * get_bytes_per_data_block h :=
          Nat.mul_le_mul_left _ hCB
      _ ≤ h.total_file_size - h.data_start_byte := Nat.div_mul_le_self _ _
      _ = dataBytes.length := havail.symm
  refine ⟨rfl, hfit, ?_⟩
  obtain ⟨blocks, rest, hr, hbl, hball, _⟩ :=
    readDataBlocks_success h.num_samples_per_data_block h.num_amplifier_channels
      (rhs_skip_after_amplifier h) (num_data_blocks h) dataBytes hfit
  refine ⟨blocks, rest, hr, hbl, hball, ?_⟩
  rw [hbl]
  rfl

/-- Witness for C3 at a concrete variant-B header with an empty data
region: zero whole blocks fit and decoding succeeds with zero blocks. -/
theorem c3_decode_whole_blocks_witness :
    num_data_blocks ⟨0, 128, 32, 32⟩ =
      ((RHeader.mk 0 128 32 32).total_file_size - (RHeader.mk 0 128 32 32).data_start_byte)
        / get_bytes_per_data_block ⟨0, 128, 32, 32⟩ ∧
    num_data_blocks ⟨0, 128, 32, 32⟩ * (4 * 128 + 2 * (128 * 0)
      + rhs_skip_after_amplifier ⟨0, 128, 32, 32⟩) ≤ ([] : List Nat).length ∧
    ∃ blocks rest, read_amplifier_data ⟨0, 128, 32, 32⟩ [] = some (blocks, rest) ∧
      blocks.length = num_data_blocks ⟨0, 128, 32, 32⟩ ∧
      (∀ blk ∈ blocks, blk.length = 128 * 0) ∧
      blocks.length * 128 = total_samples ⟨0, 128, 32, 32⟩ :=
  c3_decode_whole_blocks ⟨0, 128, 32, 32⟩ [] (by decide) (Or.inr rfl)

/-! ## Channel retention in header parsing (C5)

A well-formed signal-group section is modelled by an encoder from
structured group descriptions to bytes, mirroring the layout that
`read_header` consumes: channel records are present exactly for the
groups read as enabled and non-empty. -/

/-- Little-endian two's-complement byte encoding of a 16-bit integer. -/
def encodeI16 (v : Int) : List Nat :=
  encodeU16 (v % 65536).toNat

/-- Encoding of a code-unit list as consecutive 16-bit words. -/
def encodeWords : List Nat → List Nat
  | [] => []
  | u :: us => encodeU16 u ++ encodeWords us

/-- Encoding of a length-prefixed UTF-16 string: a 32-bit byte count
(`2 * number of code units`) followed by the code units. -/
def encode_qstring (s : List Nat) : List Nat :=
  encodeU32 (2 * s.length) ++ encodeWords s

/-- One channel record of a source file: names, the six metadata fields of
the variant-A record (`signal_type` is field 2, `enabled` field 3), and
the 16 trigger/impedance bytes that the parser skips. -/
structure SrcChannel where
  native : List Nat
  custom : List Nat
  m0 : Int
  m1 : Int
  signal_type : Int
  enabled : Int
  m4 : Int
  m5 : Int
  trig : List Nat
  deriving DecidableEq

/-- One signal group of a source file. -/
structure SrcGroup where
  gname : List Nat
  glabel : List Nat
  enabled : Int
  unused : Int
  channels : List SrcChannel
  deriving DecidableEq

def wfString (s : List Nat) : Prop :=
  (∀ u ∈ s, u < 65536) ∧ 2 * s.length < 4294967295

def wfI16 (v : Int) : Prop := -32768 ≤ v ∧ v < 32768

def wfChannel (c : SrcChannel) : Prop :=
  wfString c.native ∧ wfString c.custom ∧ wfI16 c.m0 ∧ wfI16 c.m1 ∧
  wfI16 c.signal_type ∧ wfI16 c.enabled ∧ wfI16 c.m4 ∧ wfI16 c.m5 ∧ c.trig.length = 16

def wfGroup (g : SrcGroup) : Prop :=
  wfString g.gname ∧ wfString g.glabel ∧ wfI16 g.enabled ∧ wfI16 g.unused ∧
  g.channels.length < 32768 ∧ ∀ c ∈ g.channels, wfChannel c

def wfGroups (gs : List SrcGroup) : Prop :=
  gs.length < 32768 ∧ ∀ g ∈ gs, wfGroup g

instance (s : List Nat) : Decidable (wfString s) := by unfold wfString; infer_instance

instance (v : Int) : Decidable (wfI16 v) := by unfold wfI16; infer_instance

instance (c : SrcChannel) : Decidable (wfChannel c) := by unfold wfChannel; infer_instance

instance (g : SrcGroup) : Decidable (wfGroup g) := by unfold wfGroup; infer_instance

instance (gs : List SrcGroup) : Decidable (wfGroups gs) := by unfold wfGroups; infer_instance

def encode_channel (c : SrcChannel) : List Nat :=
  encode_qstring c.native ++ encode_qstring c.custom ++
  encodeI16 c.m0 ++ encodeI16 c.m1 ++ encodeI16 c.signal_type ++ encodeI16 c.enabled ++
  encodeI16 c.m4 ++ encodeI16 c.m5 ++ c.trig

def encode_channels : List SrcChannel → List Nat
  | [] => []
  | c :: cs => encode_channel c ++ encode_channels cs

/-- A group's bytes: names, the three 16-bit fields, then the channel
records exactly when the parser will read them (enabled, non-empty). -/
def encode_group (g : SrcGroup) : List Nat :=
  encode_qstring g.gname ++ encode_qstring g.glabel ++
  encodeI16 g.enabled ++ encodeI16 g.channels.length ++ encodeI16 g.unused ++
  (if 0 < g.channels.length ∧ 0 < g.enabled then encode_channels g.channels else [])

def encode_groups_list : List SrcGroup → List Nat
  | [] => []
  | g :: gs => encode_group g ++ encode_groups_list gs

/-- The whole signal-group section: a 16-bit group count followed by the
groups. -/
def encode_groups (gs : List SrcGroup) : List Nat :=
  encodeI16 gs.length ++ encode_groups_list gs

/-- The channels the claim says parsing must retain: within each group
whose channel records are present (enabled, non-empty), exactly those
whose enabled flag is set and whose signal kind is amplifier (0), in
group-then-channel order. -/
def retained_of_group (g : SrcGroup) : List ChannelDescriptor :=
  if 0 < g.channels.length ∧ 0 < g.enabled then
    (g.channels.filter (fun c => c.enabled != 0 && c.signal_type == 0)).map
      (fun c => ⟨c.native, c.custom, c.signal_type⟩)
  else []

def retained_channels : List SrcGroup → List ChannelDescriptor
  | [] => []
  | g :: gs => retained_of_group g ++ retained_channels gs

theorem readU16LE_encode (u : Nat) (hu : u < 65536) (rest : List Nat) :
    readU16LE (encodeU16 u ++ rest) = some (u, rest) := by
  simp only [encodeU16, List.cons_append, List.nil_append, readU16LE]
  have h1 : u % 256 + 256 * (u / 256 % 256) = u := by omega
  rw [h1]

theorem readI16LE_encode (v : Int) (hlo : -32768 ≤ v) (hhi : v < 32768) (rest : List Nat) :
    readI16LE (encodeI16 v ++ rest) = some (v, rest) := by
  simp only [encodeI16, encodeU16, List.cons_append, List.nil_append, readI16LE]
  have h1 : (v % 65536).toNat % 256 + 256 * ((v % 65536).toNat / 256 % 256)
      = (v % 65536).toNat := by omega
  simp only [h1]
  split
  · rename_i hc
    have hv : (((v % 65536).toNat : Nat) : Int) = v := by omega
    rw [hv]
  · rename_i hc
    have hv : (((v % 65536).toNat : Nat) : Int) - 65536 = v := by omega
    rw [hv]

theorem readWords_encodeWords (s : List Nat) : (∀ u ∈ s, u < 65536) → ∀ rest : List Nat,
    readWords s.length (encodeWords s ++ rest) = some (s, rest) := by
  induction s with
  | nil =>
    intro _ rest
    simp [encodeWords, readWords]
  | cons u us ih =>
    intro hs rest
    show readWords (us.length + 1) ((encodeU16 u ++ encodeWords us) ++ rest) = _
    rw [List.append_assoc]
    unfold readWords
    rw [readU16LE_encode u (hs u (by simp)) _]
    simp only [Option.bind_eq_bind, Option.some_bind]
    rw [ih (fun w hw => hs w (by simp [hw])) rest]
    rfl

theorem read_qstring_encode (s : List Nat) (hwf : wfString s) (rest : List Nat) :
    read_qstring (encode_qstring s ++ rest) = some (s, rest) := by
  unfold read_qstring encode_qstring
  rw [List.append_assoc, readU32LE_encode (2 * s.length) (Nat.lt_trans hwf.2 (by norm_num)) _]
  simp only [Option.bind_eq_bind, Option.some_bind]
  rw [if_neg (by omega)]
  have h2 : 2 * s.length / 2 = s.length := by omega
  rw [h2]
  exact readWords_encodeWords s hwf.1 rest

theorem readChannelMeta_true_encode (c : SrcChannel) (hwf : wfChannel c) (rest : List Nat) :
    readChannelMeta true (encodeI16 c.m0 ++ (encodeI16 c.m1 ++ (encodeI16 c.signal_type ++
      (encodeI16 c.enabled ++ (encodeI16 c.m4 ++ (encodeI16 c.m5 ++ rest)))))) =
      some ((c.signal_type, c.enabled), rest) := by
  obtain ⟨-, -, h0, h1, h2, h3, h4, h5, -⟩ := hwf
  unfold readChannelMeta
  rw [if_pos rfl]
  rw [readI16LE_encode c.m0 h0.1 h0.2]
  simp only [Option.bind_eq_bind, Option.some_bind]
  rw [readI16LE_encode c.m1 h1.1 h1.2]
  simp only [Option.some_bind]
  rw [readI16LE_encode c.signal_type h2.1 h2.2]
  simp only [Option.some_bind]
  rw [readI16LE_encode c.enabled h3.1 h3.2]
  simp only [Option.some_bind]
  rw [readI16LE_encode c.m4 h4.1 h4.2]
  simp only [Option.some_bind]
  rw [readI16LE_encode c.m5 h5.1 h5.2]
  simp only [Option.some_bind]

theorem read_channel_encode (c : SrcChannel) (hwf : wfChannel c) (rest : List Nat) :
    read_channel true (encode_channel c ++ rest) =
      some (if c.enabled ≠ 0 ∧ c.signal_type = 0 then
        some ⟨c.native, c.custom, c.signal_type⟩ else none, rest) := by
  have ht : c.trig.length = 16 := hwf.2.2.2.2.2.2.2.2
  unfold read_channel encode_channel
  simp only [List.append_assoc]
  rw [read_qstring_encode c.native hwf.1]
  simp only [Option.bind_eq_bind, Option.some_bind]
  rw [read_qstring_encode c.custom hwf.2.1]
  simp only [Option.some_bind]
  rw [readChannelMeta_true_encode c hwf]
  simp only [Option.some_bind]
  have hdrop : (c.trig ++ rest).drop (8 + 8) = rest := by
    have h16 : (8 : Nat) + 8 = 16 := rfl
    rw [h16, ← ht, List.drop_left]
  rw [hdrop]
  by_cases h : c.enabled ≠ 0 ∧ c.signal_type = 0
  · rw [if_pos h, if_pos h]
  · rw [if_neg h, if_neg h]

theorem read_channels_encode (cs : List SrcChannel) : (∀ c ∈ cs, wfChannel c) →
    ∀ rest : List Nat,
    read_channels true cs.length (encode_channels cs ++ rest) =
      some ((cs.filter (fun c => c.enabled != 0 && c.signal_type == 0)).map
        (fun c => ⟨c.native, c.custom, c.signal_type⟩), rest) := by
  induction cs with
  | nil =>
    intro _ rest
    simp [encode_channels, read_channels]
  | cons c cs ih =>
    intro h rest
    show read_channels true (cs.length + 1) ((encode_channel c ++ encode_channels cs) ++ rest) = _
    rw [List.append_assoc]
    unfold read_channels
    rw [read_channel_encode c (h c (by simp))]
    simp only [Option.bind_eq_bind, Option.some_bind]
    rw [ih (fun x hx => h x (by simp [hx])) rest]
    simp only [Option.some_bind, List.filter_cons]
    by_cases hP : c.enabled ≠ 0 ∧ c.signal_type = 0
    · have hb : (c.enabled != 0 && c.signal_type == 0) = true := by
        rw [Bool.and_eq_true, bne_iff_ne, beq_iff_eq]
        exact hP
      rw [if_pos hP, hb]
      simp
    · have hb : (c.enabled != 0 && c.signal_type == 0) = false := by
        apply Bool.eq_false_iff.mpr
        intro hcontra
        rw [Bool.and_eq_true, bne_iff_ne, beq_iff_eq] at hcontra
        exact hP hcontra
      rw [if_neg hP, hb]
      simp

theorem read_signal_group_encode (g : SrcGroup) (hwf : wfGroup g) (rest : List Nat) :
    read_signal_group true (encode_group g ++ rest) = some (retained_of_group g, rest) := by
  obtain ⟨hn, hl, he, hu, hlen, hcs⟩ := hwf
  unfold read_signal_group encode_group
  simp only [List.append_assoc]
  rw [read_qstring_encode g.gname hn]
  simp only [Option.bind_eq_bind, Option.some_bind]
  rw [read_qstring_encode g.glabel hl]
  simp only [Option.some_bind]
  rw [readI16LE_encode g.enabled he.1 he.2]
  simp only [Option.some_bind]
  rw [readI16LE_encode (g.channels.length : Int) (by omega) (by omega)]
  simp only [Option.some_bind]
  rw [readI16LE_encode g.unused hu.1 hu.2]
  simp only [Option.some_bind]
  unfold retained_of_group
  by_cases hc : 0 < g.channels.length ∧ 0 < g.enabled
  · have hci : 0 < (g.channels.length : Int) ∧ 0 < g.enabled :=
      ⟨by exact_mod_cast hc.1, hc.2⟩
    rw [if_pos hci, if_pos hc, if_pos hc]
    have htn : ((g.channels.length : Int)).toNat = g.channels.length := by omega
    rw [htn]
    exact read_channels_encode g.channels hcs rest
  · have hci : ¬(0 < (g.channels.length : Int) ∧ 0 < g.enabled) := by
      intro hcontra
      exact hc ⟨by exact_mod_cast hcontra.1, hcontra.2⟩
    rw [if_neg hci, if_neg hc, if_neg hc]
    rw [List.nil_append]

theorem read_signal_groups_loop_encode (gs : List SrcGroup) : (∀ g ∈ gs, wfGroup g) →
    ∀ rest : List Nat,
    read_signal_groups_loop true gs.length (encode_groups_list gs ++ rest) =
      some (retained_channels gs, rest) := by
  induction gs with
  | nil =>
    intro _ rest
    simp [encode_groups_list, read_signal_groups_loop, retained_channels]
  | cons g gs ih =>
    intro h rest
    show read_signal_groups_loop true (gs.length + 1)
      ((encode_group g ++ encode_groups_list gs) ++ rest) = _
    rw [List.append_assoc]
    unfold read_signal_groups_loop
    rw [read_signal_group_encode g (h g (by simp))]
    simp only [Option.bind_eq_bind, Option.some_bind]
    rw [ih (fun x hx => h x (by simp [hx])) rest]
    rfl

/-- C5: on every well-formed variant-A signal-group section (a group count
followed, per group, by names, the enabled/count fields, and — exactly for
groups read as enabled and non-empty — the channel records), `read_header`'s
group loop retains exactly the channels whose enabled flag is set and whose
signal kind equals amplifier (0), in group-then-channel order, and no
others: its output is `retained_channels`, the group-ordered filter-map of
the encoded channels. -/
theorem c5_parse_retains_enabled_amplifier_channels (gs : List SrcGroup) (hwf : wfGroups gs)
    (rest : List Nat) :
    read_signal_groups true (encode_groups gs ++ rest) = some (retained_channels gs, rest) := by
  unfold read_signal_groups encode_groups
  rw [List.append_assoc, readI16LE_encode (gs.length : Int) (by omega) (by
    have := hwf.1
    omega)]
  simp only [Option.bind_eq_bind, Option.some_bind]
  have htn : ((gs.length : Int)).toNat = gs.length := by omega
  rw [htn]
  exact read_signal_groups_loop_encode gs hwf.2 rest

/-- A concrete two-group section: an enabled group with one enabled
amplifier channel, one disabled channel and one enabled non-amplifier
channel, followed by a disabled group. -/
def sampleGroups : List SrcGroup :=
  [⟨[71], [65], 1, 0,
    [⟨[78, 49], [67, 49], 0, 0, 0, 1, 0, 0, List.replicate 16 0⟩,
     ⟨[78, 50], [67, 50], 0, 0, 0, 0, 0, 0, List.replicate 16 0⟩,
     ⟨[78, 51], [67, 51], 0, 0, 1, 1, 0, 0, List.replicate 16 0⟩]⟩,
   ⟨[72], [66], 0, 0,
    [⟨[78, 52], [67, 52], 0, 0, 0, 1, 0, 0, List.replicate 16 0⟩]⟩]

/-- Witness for C5 on `sampleGroups`: only the first group's first channel
(enabled, amplifier) is retained. -/
theorem c5_parse_retains_enabled_amplifier_channels_witness :
    read_signal_groups true (encode_groups sampleGroups ++ [9]) =
      some (retained_channels sampleGroups, [9]) :=
  c5_parse_retains_enabled_amplifier_channels sampleGroups (by decide) [9]

/-! ## Variant selection and samples per block (C8) -/

/-- C8: whenever `read_header` succeeds, the samples-per-block constant is
tied to the magic number the stream carries: a stream whose 4-byte
little-endian magic is 0xc6912702 parses as variant A with 60 samples per
block, and one whose magic is 0xd69127ac parses as variant B with 128
samples per block (a parse in the wrong variant fails on the magic check,
so a successful parse pins the variant to the magic). -/
theorem c8_samples_per_block_by_magic (rhd : Bool) (b : List Nat) (h : HeaderModel)
    (rest : List Nat) (hp : read_header rhd b = some (h, rest)) :
    (∀ r, readU32LE b = some (0xc6912702, r) → h.samples_per_block_field = 60) ∧
    (∀ r, readU32LE b = some (0xd69127ac, r) → h.samples_per_block_field = 128) := by
  cases rhd with
  | true =>
    simp only [read_header, ite_true, Option.bind_eq_bind, Option.bind_eq_some] at hp
    obtain ⟨⟨m, b1⟩, e1, hp⟩ := hp
    by_cases hm : m = 0xc6912702
    · rw [if_pos hm] at hp
      simp only [Option.bind_eq_bind, Option.bind_eq_some] at hp
      obtain ⟨⟨vmaj, b2⟩, e2, hp⟩ := hp
      obtain ⟨⟨vmin, b3⟩, e3, hp⟩ := hp
      obtain ⟨⟨sr, b4⟩, e4, hp⟩ := hp
      obtain ⟨⟨s1, b5⟩, e5, hp⟩ := hp
      obtain ⟨⟨s2, b6⟩, e6, hp⟩ := hp
      obtain ⟨⟨s3, b7⟩, e7, hp⟩ := hp
      obtain ⟨b8, e8, hp⟩ := hp
      obtain ⟨⟨chans, b9⟩, e9, hp⟩ := hp
      have hfst := congrArg Prod.fst (Option.some.inj hp)
      simp only at hfst
      constructor
      · intro r hr
        rw [← hfst]
      · intro r hr
        rw [e1] at hr
        have hmm := congrArg Prod.fst (Option.some.inj hr)
        simp only at hmm
        rw [hm] at hmm
        exact absurd hmm (by omega)
    · rw [if_neg hm] at hp
      exact absurd hp (by simp)
  | false =>
    simp only [read_header, Option.bind_eq_bind, Option.bind_eq_some] at hp
    obtain ⟨⟨m, b1⟩, e1, hp⟩ := hp
    simp only [Bool.false_eq_true, if_false] at hp
    by_cases hm : m = 0xd69127ac
    · rw [if_pos hm] at hp
      simp only [Option.bind_eq_bind, Option.bind_eq_some] at hp
      obtain ⟨⟨vmaj, b2⟩, e2, hp⟩ := hp
      obtain ⟨⟨vmin, b3⟩, e3, hp⟩ := hp
      obtain ⟨⟨sr, b4⟩, e4, hp⟩ := hp
      obtain ⟨⟨s1, b5⟩, e5, hp⟩ := hp
      obtain ⟨⟨s2, b6⟩, e6, hp⟩ := hp
      obtain ⟨⟨s3, b7⟩, e7, hp⟩ := hp
      obtain ⟨b8, e8, hp⟩ := hp
      obtain ⟨⟨chans, b9⟩, e9, hp⟩ := hp
      have hfst := congrArg Prod.fst (Option.some.inj hp)
      simp only at hfst
      constructor
      · intro r hr
        rw [e1] at hr
        have hmm := congrArg Prod.fst (Option.some.inj hr)
        simp only at hmm
        rw [hm] at hmm
        exact absurd hmm (by omega)
      · intro r hr
        rw [← hfst]
    · rw [if_neg hm] at hp
      exact absurd hp (by simp)

/-- A minimal well-formed variant-A header byte stream: magic 0xc6912702,
version 1.0, zero sample-rate bits, the variant-A skips, three empty note
strings, the version-gated skip and a zero group count. -/
def sampleHeaderBytes : List Nat :=
  [2, 39, 145, 198] ++ [1, 0] ++ [0, 0] ++ [0, 0, 0, 0] ++ [0, 0] ++
  [255, 255, 255, 255] ++ [255, 255, 255, 255] ++ [255, 255, 255, 255] ++
  [0, 0, 0, 0] ++ [0, 0]

/-- Witness for C8: parsing `sampleHeaderBytes` (whose magic is
0xc6912702) succeeds and yields 60 samples per block. -/
theorem c8_samples_per_block_by_magic_witness :
    (HeaderModel.mk 1 0 0 [] 60).samples_per_block_field = 60 :=
  (c8_samples_per_block_by_magic true sampleHeaderBytes ⟨1, 0, 0, [], 60⟩ []
      (by decide)).1
    ([1, 0] ++ [0, 0] ++ [0, 0, 0, 0] ++ [0, 0] ++
      [255, 255, 255, 255] ++ [255, 255, 255, 255] ++ [255, 255, 255, 255] ++
      [0, 0, 0, 0] ++ [0, 0])
    (by decide)
